import Mathlib

/-!
Verification of the mastermind repository: a shallow embedding of the code
comparator (`mastermind.py`), the candidate-pool operations
(`algorithms/initialization.py`, `algorithms/simple.py`,
`scripts/generate_set.py`), the Kooi partition strategy
(`src/algorithms/koois.py`) and the game-progression semantics of
`simulate_game`, together with theorems checking the specification's claims
against these definitions.
-/

namespace Mastermind

/-- Codes are sequences of colours, represented by natural numbers as in
`mastermind.py` (`Code = Tuple[int, ...] | List[int]`). -/
abbrev Code := List ℕ

/-- Feedback returned by `compare_codes`: `(correct_order, incorrect_order)`.
The second component is an integer because the source computes it by
subtracting `correct_order` from the raw frequency overlap. -/
abbrev Feedback := ℕ × ℤ

/-- First loop of `compare_codes` (mastermind.py, lines 98-100): for every
`(index, colour)` pair of `enumerate(secret)` that also occurs in
`enumerate(to_compare)`, increment `correct_order`; this counts the positions
present in both codes at which the colours agree (positions past the end of
either code never match). -/
def correctOrderCount : Code → Code → ℕ
  | [], _ => 0
  | _ :: _, [] => 0
  | a :: s, b :: g => (if a = b then 1 else 0) + correctOrderCount s g

/-- Second loop of `compare_codes` (mastermind.py, lines 104-106): iterate over
the keys of `Counter(secret)` (the distinct colours of `secret`); whenever the
colour is also a key of `Counter(to_compare)`, add the smaller of the two
frequencies. `List.dedup` enumerates each distinct colour exactly once,
matching the `Counter` key view; the enumeration order does not affect the
sum. -/
def frequencyOverlap (secret to_compare : Code) : ℕ :=
  (secret.dedup.map (fun colour =>
    if colour ∈ to_compare then min (secret.count colour) (to_compare.count colour)
    else 0)).sum

/-- mastermind.py `compare_codes` (lines 78-111): the pair of the exact-match
count and the frequency overlap minus the exact-match count
(`incorrect_order -= correct_order`). -/
def compare_codes (secret to_compare : Code) : Feedback :=
  (correctOrderCount secret to_compare,
    (frequencyOverlap secret to_compare : ℤ) - correctOrderCount secret to_compare)

/-- mastermind.py `is_won` (lines 115-122): the first component of the
correctness pair equals the board width. -/
def is_won (correctness : Feedback) (board_width : ℕ) : Bool :=
  correctness.1 == board_width

/-- initialization.py `reduce` (lines 40-53): keep the combinations whose score
against `guess` equals the given `score`. -/
def reduce (possible_combinations : List Code) (guess : Code) (score : Feedback) :
    List Code :=
  possible_combinations.filter (fun pc => decide (score = compare_codes guess pc))

/-- generate_set.py `generate_permutations_with_replacement` (lines 33-41):
`itertools.product(range(seq_length), repeat=width)` as a list, in product
order (leftmost coordinate outermost, exactly the order the generator
expression yields). -/
def generate_permutations_with_replacement : ℕ → ℕ → List Code
  | 0, _ => [[]]
  | w + 1, seq_length =>
      ((List.range seq_length).map (fun d =>
        (generate_permutations_with_replacement w seq_length).map
          (fun rest => d :: rest))).flatten

/-- simple.py `get_guess` (lines 71-77): `random.choice(possible_combinations)`.
The random draw is modelled explicitly: `i` is the index the random source
picks, uniformly among the valid indices, so any `i` can occur on a given
run. -/
def get_guess (possible_combinations : List Code)
    (i : Fin possible_combinations.length) : Code :=
  possible_combinations.get i

/-- Loop of koois.py `get_category` (lines 74-75): for each sorted frequency
`combination_count`, with `counter` the running index, append
`[counter] * combination_count` to the category being built. -/
def buildCategory : ℕ → List ℕ → List ℕ
  | _, [] => []
  | counter, combination_count :: rest =>
      List.replicate combination_count counter ++ buildCategory (counter + 1) rest

/-- koois.py `get_category` (lines 60-77): take the frequencies of the colours
of `combination` (`Counter(combination).values()`), sort them in decreasing
order (`sorted(..., reverse=True)`), and flatten them into
`[0]*m0 ++ [1]*m1 ++ ...`. -/
def get_category (combination : Code) : Code :=
  buildCategory 0
    ((combination.dedup.map (fun colour => combination.count colour)).mergeSort
      (fun a b => decide (b ≤ a)))

/-- koois.py `get_partition_count` (lines 80-98): the number of distinct
feedback values (`len(Counter(...))`, the number of distinct keys) that
`combination` produces against every element of the pool. -/
def get_partition_count (possible_combinations : List Code) (combination : Code) : ℕ :=
  ((possible_combinations.map (fun pc => compare_codes combination pc)).dedup).length

/-- koois.py `get_all_categories` (lines 101-112): the set of categories of the
pool's elements, modelled as a duplicate-free list; the Python set's iteration
order is unspecified, so the claim about the strategy is stated so that it does
not depend on this enumeration order. -/
def get_all_categories (possible_combinations : List Code) : List Code :=
  (possible_combinations.map get_category).dedup

/-- Python's built-in `max(xs, key=f)` as used in koois.py line 41: scan left
to right keeping the current best and replacing it only on a strictly larger
key, so the first element attaining the maximum key is returned; `none` on an
empty list. -/
def maxByKey {α : Type} (f : α → ℕ) : List α → Option α
  | [] => none
  | x :: xs => some (xs.foldl (fun best y => if f best < f y then y else best) x)

/-- koois.py `main`, lines 34-46 (one round's guess selection): collect the
categories present in the pool, compute each category's partition count using
the category tuple itself as the probe, take the category with the largest
partition count, and return the first pool element belonging to that
category (`next(c for c in combinations if get_category(c) == largest)`). -/
def kooi_guess (possible_combinations : List Code) : Option Code :=
  match maxByKey (get_partition_count possible_combinations)
      (get_all_categories possible_combinations) with
  | none => none
  | some largest_category =>
      possible_combinations.find? (fun c => decide (get_category c = largest_category))

/-- States of a game session. `simulate_game` (mastermind.py, lines 161-208) is
a generator: while its round loop is suspended waiting for a guess it is
`awaiting r` (with `r` guesses consumed so far); after it terminates through
the win branch it is `won`; after the loop exhausts `game_length` rounds it is
`lost`. -/
inductive SessionState where
  | awaiting (round : ℕ)
  | won
  | lost
deriving DecidableEq

/-- One running `simulate_game` generator: the fixed secret generated at entry,
the `board_width` and `game_length` arguments, and the current control state. -/
structure Session where
  secret : Code
  board_width : ℕ
  game_length : ℕ
  state : SessionState
deriving DecidableEq

/-- Entry of `simulate_game`: the secret is fixed and the loop is about to ask
for its first guess, i.e. `awaiting 0`. -/
def initSession (secret : Code) (board_width game_length : ℕ) : Session :=
  { secret := secret, board_width := board_width, game_length := game_length,
    state := SessionState.awaiting 0 }

/-- One `send(guess)` to the `simulate_game` generator (mastermind.py,
lines 189-208): in `awaiting r` with rounds remaining, the guess is scored
against the fixed secret (`compare_codes`), the win flag is `is_won`, and the
answer `(correctness, won)` is produced; the generator then terminates on a
win (`won`), terminates by loop exhaustion when the `game_length`-th guess was
just consumed without a win (`lost`), and otherwise suspends again
(`awaiting (r+1)`). Sending a guess to a terminated or exhausted generator
raises `StopIteration`, modelled as `Except.error`. -/
def submit_guess (s : Session) (guess : Code) :
    Except Unit (Session × Feedback × Bool) :=
  match s.state with
  | SessionState.awaiting r =>
      if r < s.game_length then
        let correctness := compare_codes s.secret guess
        let w := is_won correctness s.board_width
        let next : SessionState :=
          if w then SessionState.won
          else if r + 1 = s.game_length then SessionState.lost
          else SessionState.awaiting (r + 1)
        Except.ok ({ s with state := next }, correctness, w)
      else Except.error ()
  | SessionState.won => Except.error ()
  | SessionState.lost => Except.error ()

/-- Specification-side exact-match count (claim C1): the number of indices at
which `secret` and `guess` carry the same colour, phrased as the number of
aligned pairs of `zip secret guess` whose two components agree. -/
def specExactMatches (secret guess : Code) : ℕ :=
  ((secret.zip guess).filter (fun p => decide (p.1 = p.2))).length

/-- Specification-side colour overlap (claim C1): the sum over all symbols of
the minimum of the symbol's frequency in `secret` and in `guess` (symbols
occurring in neither contribute `0`, so the sum ranges over the union of the
symbols present). -/
def specColourOverlap (secret guess : Code) : ℕ :=
  ∑ colour ∈ secret.toFinset ∪ guess.toFinset,
    min (secret.count colour) (guess.count colour)

lemma dedup_toFinset (l : List ℕ) : l.dedup.toFinset = l.toFinset := by
  ext x
  simp [List.mem_toFinset, List.mem_dedup]

lemma frequencyOverlap_eq_sum_toFinset (s g : Code) :
    frequencyOverlap s g = ∑ c ∈ s.toFinset, min (s.count c) (g.count c) := by
  unfold frequencyOverlap
  rw [← List.sum_toFinset _ (List.nodup_dedup s), dedup_toFinset]
  refine Finset.sum_congr rfl ?_
  intro c _
  by_cases hg : c ∈ g
  · simp [hg]
  · simp [hg, List.count_eq_zero.mpr hg]

lemma sum_toFinset_min_eq_union (s g : Code) :
    ∑ c ∈ s.toFinset, min (s.count c) (g.count c) = specColourOverlap s g := by
  unfold specColourOverlap
  refine Finset.sum_subset Finset.subset_union_left ?_
  intro c _ hc
  have hns : c ∉ s := fun h => hc (List.mem_toFinset.mpr h)
  simp [List.count_eq_zero.mpr hns]

lemma frequencyOverlap_eq_spec (s g : Code) :
    frequencyOverlap s g = specColourOverlap s g :=
  (frequencyOverlap_eq_sum_toFinset s g).trans (sum_toFinset_min_eq_union s g)

lemma specColourOverlap_eq_card_inter (s g : Code) :
    specColourOverlap s g = Multiset.card ((↑s : Multiset ℕ) ∩ ↑g) := by
  have h1 : specColourOverlap s g
      = ∑ c ∈ s.toFinset ∪ g.toFinset, Multiset.count c ((↑s : Multiset ℕ) ∩ ↑g) := by
    refine Finset.sum_congr rfl ?_
    intro c _
    rw [Multiset.count_inter, Multiset.coe_count, Multiset.coe_count]
  have hsub : ((↑s : Multiset ℕ) ∩ ↑g).toFinset ⊆ s.toFinset ∪ g.toFinset := by
    intro c hc
    have hc' : c ∈ ((↑s : Multiset ℕ) ∩ ↑g) := Multiset.mem_toFinset.mp hc
    have hcs : c ∈ (↑s : Multiset ℕ) :=
      Multiset.mem_of_le (Multiset.inter_le_left _ _) hc'
    exact Finset.mem_union_left _ (List.mem_toFinset.mpr (Multiset.mem_coe.mp hcs))
  have h2 : ∑ c ∈ s.toFinset ∪ g.toFinset, Multiset.count c ((↑s : Multiset ℕ) ∩ ↑g)
      = ∑ c ∈ ((↑s : Multiset ℕ) ∩ ↑g).toFinset,
          Multiset.count c ((↑s : Multiset ℕ) ∩ ↑g) := by
    refine (Finset.sum_subset hsub ?_).symm
    intro c _ hc
    exact Multiset.count_eq_zero.mpr (fun h => hc (Multiset.mem_toFinset.mpr h))
  rw [h1, h2, Multiset.toFinset_sum_count_eq]

lemma frequencyOverlap_eq_card_inter (s g : Code) :
    frequencyOverlap s g = Multiset.card ((↑s : Multiset ℕ) ∩ ↑g) :=
  (frequencyOverlap_eq_spec s g).trans (specColourOverlap_eq_card_inter s g)

lemma specColourOverlap_comm (s g : Code) :
    specColourOverlap s g = specColourOverlap g s := by
  unfold specColourOverlap
  rw [Finset.union_comm]
  exact Finset.sum_congr rfl (fun c _ => min_comm _ _)

lemma frequencyOverlap_comm (s g : Code) :
    frequencyOverlap s g = frequencyOverlap g s := by
  rw [frequencyOverlap_eq_spec, frequencyOverlap_eq_spec, specColourOverlap_comm]

lemma correctOrderCount_comm (s : Code) : ∀ g : Code,
    correctOrderCount s g = correctOrderCount g s := by
  induction s with
  | nil => intro g; cases g <;> rfl
  | cons a s ih =>
      intro g
      cases g with
      | nil => rfl
      | cons b g' =>
          simp only [correctOrderCount, ih g']
          congr 1
          by_cases h : a = b
          · rw [if_pos h, if_pos h.symm]
          · rw [if_neg h, if_neg (fun hh => h hh.symm)]

lemma correctOrderCount_eq_spec (s : Code) : ∀ g : Code,
    correctOrderCount s g = specExactMatches s g := by
  induction s with
  | nil => intro g; cases g <;> rfl
  | cons a s ih =>
      intro g
      cases g with
      | nil => rfl
      | cons b g' =>
          simp only [correctOrderCount]
          rcases eq_or_ne a b with h | h
          · have hspec : specExactMatches (a :: s) (b :: g') = specExactMatches s g' + 1 := by
              simp [specExactMatches, List.zip_cons_cons, List.filter_cons, h]
            rw [hspec, if_pos h, ih g']
            omega
          · have hspec : specExactMatches (a :: s) (b :: g') = specExactMatches s g' := by
              simp [specExactMatches, List.zip_cons_cons, List.filter_cons, h]
            rw [hspec, if_neg h, ih g']
            omega

lemma correctOrderCount_le_length (s : Code) : ∀ g : Code,
    correctOrderCount s g ≤ s.length := by
  induction s with
  | nil => intro g; cases g <;> simp [correctOrderCount]
  | cons a s ih =>
      intro g
      cases g with
      | nil => simp [correctOrderCount]
      | cons b g' =>
          simp only [correctOrderCount, List.length_cons]
          have := ih g'
          by_cases h : a = b <;> simp [h] <;> omega

lemma map_fst_zip_sublist (s : Code) : ∀ g : Code,
    ((s.zip g).map Prod.fst).Sublist s := by
  induction s with
  | nil => intro g; simp
  | cons a s ih =>
      intro g
      cases g with
      | nil => simp
      | cons b g' =>
          simp only [List.zip_cons_cons, List.map_cons]
          exact List.Sublist.cons₂ a (ih g')

lemma map_snd_zip_sublist (s : Code) : ∀ g : Code,
    ((s.zip g).map Prod.snd).Sublist g := by
  induction s with
  | nil => intro g; simp
  | cons a s ih =>
      intro g
      cases g with
      | nil => simp
      | cons b g' =>
          simp only [List.zip_cons_cons, List.map_cons]
          exact List.Sublist.cons₂ b (ih g')

lemma matched_fst_eq_snd : ∀ l : List (ℕ × ℕ),
    (l.filter (fun p => decide (p.1 = p.2))).map Prod.fst
      = (l.filter (fun p => decide (p.1 = p.2))).map Prod.snd := by
  intro l
  induction l with
  | nil => rfl
  | cons p l ih =>
      rw [List.filter_cons]
      by_cases h : p.1 = p.2
      · simp [h, ih]
      · simp [h, ih]

lemma correctOrderCount_le_card_inter (s g : Code) :
    correctOrderCount s g ≤ Multiset.card ((↑s : Multiset ℕ) ∩ ↑g) := by
  have hlen : correctOrderCount s g
      = (((s.zip g).filter (fun p => decide (p.1 = p.2))).map Prod.fst).length := by
    rw [correctOrderCount_eq_spec]
    unfold specExactMatches
    rw [List.length_map]
  have hfst : (((s.zip g).filter (fun p => decide (p.1 = p.2))).map Prod.fst).Sublist s :=
    (List.Sublist.map Prod.fst (List.filter_sublist _)).trans (map_fst_zip_sublist s g)
  have hsnd : (((s.zip g).filter (fun p => decide (p.1 = p.2))).map Prod.fst).Sublist g := by
    rw [matched_fst_eq_snd]
    exact (List.Sublist.map Prod.snd (List.filter_sublist _)).trans (map_snd_zip_sublist s g)
  have hle : (↑(((s.zip g).filter (fun p => decide (p.1 = p.2))).map Prod.fst) : Multiset ℕ)
      ≤ (↑s : Multiset ℕ) ∩ ↑g :=
    Multiset.le_inter (Multiset.coe_le.mpr hfst.subperm) (Multiset.coe_le.mpr hsnd.subperm)
  have hcard := Multiset.card_le_card hle
  rwa [Multiset.coe_card, ← hlen] at hcard

lemma correctOrderCount_le_frequencyOverlap (s g : Code) :
    correctOrderCount s g ≤ frequencyOverlap s g := by
  rw [frequencyOverlap_eq_card_inter]
  exact correctOrderCount_le_card_inter s g

lemma compare_codes_eq_spec (s g : Code) :
    compare_codes s g
      = (specExactMatches s g, (specColourOverlap s g : ℤ) - specExactMatches s g) := by
  unfold compare_codes
  rw [correctOrderCount_eq_spec, frequencyOverlap_eq_spec]

lemma compare_codes_comm (s g : Code) : compare_codes s g = compare_codes g s := by
  unfold compare_codes
  rw [correctOrderCount_comm, frequencyOverlap_comm]

/-- C1: for every pair of equal-width codes, `compare_codes secret guess`
returns the pair `(exact, colour)` where `exact` is the number of indices at
which the two codes agree and `colour` is the sum over all symbols of the
minimum of the two frequencies, minus `exact`; in particular secret
`(0,1,2,3)` with guess `(0,1,2,4)` yields `(3, 0)` and with guess `(3,2,1,0)`
yields `(0, 4)`. -/
theorem compare_codes_spec :
    (∀ secret guess : Code, secret.length = guess.length →
      compare_codes secret guess
        = (specExactMatches secret guess,
            (specColourOverlap secret guess : ℤ) - specExactMatches secret guess)) ∧
    compare_codes [0, 1, 2, 3] [0, 1, 2, 4] = (3, 0) ∧
    compare_codes [0, 1, 2, 3] [3, 2, 1, 0] = (0, 4) :=
  ⟨fun secret guess _ => compare_codes_eq_spec secret guess, by decide, by decide⟩

/-- Witness for C1 at the concrete equal-width pair `(0,1,2,3)`, `(0,1,2,4)`. -/
theorem compare_codes_spec_witness :
    compare_codes [0, 1, 2, 3] [0, 1, 2, 4]
      = (specExactMatches [0, 1, 2, 3] [0, 1, 2, 4],
          (specColourOverlap [0, 1, 2, 3] [0, 1, 2, 4] : ℤ)
            - specExactMatches [0, 1, 2, 3] [0, 1, 2, 4]) :=
  compare_codes_spec.1 [0, 1, 2, 3] [0, 1, 2, 4] rfl

/-- C2: `reduce pool guess feedback`, with the feedback computed honestly
against a secret contained in the pool, returns a subset of the pool that
still contains the secret. -/
theorem reduce_sound (pool : List Code) (secret guess : Code) (w : ℕ)
    (hsec : secret ∈ pool) (hpool : ∀ c ∈ pool, c.length = w)
    (hg : guess.length = w) :
    reduce pool guess (compare_codes secret guess) ⊆ pool ∧
      secret ∈ reduce pool guess (compare_codes secret guess) := by
  constructor
  · exact (List.filter_sublist pool).subset
  · unfold reduce
    rw [List.mem_filter]
    exact ⟨hsec, decide_eq_true (compare_codes_comm secret guess)⟩

/-- Witness for C2 on the pool `[(0,1), (1,0)]` with secret `(0,1)` and guess
`(1,0)`. -/
theorem reduce_sound_witness :
    reduce [[0, 1], [1, 0]] [1, 0] (compare_codes [0, 1] [1, 0]) ⊆ [[0, 1], [1, 0]] ∧
      [0, 1] ∈ reduce [[0, 1], [1, 0]] [1, 0] (compare_codes [0, 1] [1, 0]) :=
  reduce_sound [[0, 1], [1, 0]] [0, 1] [1, 0] 2 (by decide) (by decide) rfl

/-- C6: `compare_codes` is symmetric in its two arguments on equal-width
codes. -/
theorem compare_codes_symm (a b : Code) (h : a.length = b.length) :
    compare_codes a b = compare_codes b a :=
  compare_codes_comm a b

/-- Witness for C6 at the concrete pair `(0,1)`, `(1,1)`. -/
theorem compare_codes_symm_witness :
    compare_codes [0, 1] [1, 1] = compare_codes [1, 1] [0, 1] :=
  compare_codes_symm [0, 1] [1, 1] rfl

/-- C7: for codes of equal width `w`, the feedback `(exact, colour)` of
`compare_codes` satisfies `0 ≤ exact ≤ w`, `0 ≤ colour` and
`exact + colour ≤ w`. -/
theorem compare_codes_bounds (a b : Code) (w : ℕ)
    (ha : a.length = w) (hb : b.length = w) :
    0 ≤ (compare_codes a b).1 ∧ (compare_codes a b).1 ≤ w ∧
      0 ≤ (compare_codes a b).2 ∧
      ((compare_codes a b).1 : ℤ) + (compare_codes a b).2 ≤ (w : ℤ) := by
  have h1 : (compare_codes a b).1 = correctOrderCount a b := rfl
  have h2 : (compare_codes a b).2
      = (frequencyOverlap a b : ℤ) - correctOrderCount a b := rfl
  have hov : frequencyOverlap a b ≤ w := by
    rw [frequencyOverlap_eq_card_inter]
    have hc := Multiset.card_le_card (Multiset.inter_le_left (↑a : Multiset ℕ) ↑b)
    rw [Multiset.coe_card, ha] at hc
    exact hc
  have hle := correctOrderCount_le_frequencyOverlap a b
  have hlen := correctOrderCount_le_length a b
  rw [ha] at hlen
  refine ⟨Nat.zero_le _, ?_, ?_, ?_⟩
  · rw [h1]; exact hlen
  · rw [h2]; omega
  · rw [h1, h2]; omega

/-- Witness for C7 at the concrete pair `(0,1)`, `(1,1)` of width 2. -/
theorem compare_codes_bounds_witness :
    0 ≤ (compare_codes [0, 1] [1, 1]).1 ∧ (compare_codes [0, 1] [1, 1]).1 ≤ 2 ∧
      0 ≤ (compare_codes [0, 1] [1, 1]).2 ∧
      ((compare_codes [0, 1] [1, 1]).1 : ℤ) + (compare_codes [0, 1] [1, 1]).2 ≤ (2 : ℤ) :=
  compare_codes_bounds [0, 1] [1, 1] 2 rfl rfl

/-- C8 counterexample: `compare_codes` performs no length validation; at the
concrete mismatched input with secret `(0,)` and guess `(0,0)` it returns the
ordinary feedback value `(1, 0)` instead of failing. -/
theorem compare_codes_no_length_error :
    ([0] : Code).length ≠ ([0, 0] : Code).length ∧
      compare_codes [0] [0, 0] = (1, 0) := by
  decide

/-- C8 amended: on codes of differing lengths `compare_codes` does not fail;
it still returns the ordinary pair `(e, m - e)` where `e` counts the aligned
positions (up to the shorter length) carrying equal colours and `m` is the
total frequency overlap of the two codes. -/
theorem compare_codes_mismatched_total (secret guess : Code)
    (h : secret.length ≠ guess.length) :
    compare_codes secret guess
      = (specExactMatches secret guess,
          (specColourOverlap secret guess : ℤ) - specExactMatches secret guess) :=
  compare_codes_eq_spec secret guess

/-- Witness for the amended C8 at the mismatched pair `(0,)`, `(0,0)`. -/
theorem compare_codes_mismatched_total_witness :
    compare_codes [0] [0, 0]
      = (specExactMatches [0] [0, 0],
          (specColourOverlap [0] [0, 0] : ℤ) - specExactMatches [0] [0, 0]) :=
  compare_codes_mismatched_total [0] [0, 0] (by decide)

/-- C5 counterexample: on the pool `[(0,), (1,)]` two different random draws
return different guesses, and the draw at index 1 does not return the first
element, so `get_guess` is neither deterministic in the pool alone nor the
first element of the pool. -/
theorem get_guess_not_deterministic :
    get_guess [[0], [1]] ⟨1, by decide⟩ ≠ get_guess [[0], [1]] ⟨0, by decide⟩ ∧
      get_guess [[0], [1]] ⟨1, by decide⟩ ≠ [0] := by
  decide

/-- C5 amended: `get_guess` returns the pool element at the index drawn by the
random source (`random.choice`) — always an element of the pool, but which
element depends on the draw, not on the pool alone. -/
theorem get_guess_random_choice (pool : List Code) (i : Fin pool.length) :
    get_guess pool i = pool.get i ∧ get_guess pool i ∈ pool :=
  ⟨rfl, List.get_mem pool i.1 i.2⟩

lemma gppwr_length (w n : ℕ) :
    (generate_permutations_with_replacement w n).length = n ^ w := by
  induction w with
  | zero => rfl
  | succ w ih =>
      simp only [generate_permutations_with_replacement, List.length_flatten,
        List.map_map]
      have hmap : List.map
            (List.length ∘ fun d =>
              (generate_permutations_with_replacement w n).map (fun rest => d :: rest))
            (List.range n)
          = List.map (fun _ => (generate_permutations_with_replacement w n).length)
              (List.range n) :=
        List.map_congr_left (fun d _ => List.length_map _ _)
      rw [hmap, List.map_const', List.sum_replicate, List.length_range, smul_eq_mul,
        ih, pow_succ]
      exact Nat.mul_comm n (n ^ w)

lemma gppwr_mem (w n : ℕ) : ∀ t : List ℕ, t.length = w → (∀ x ∈ t, x < n) →
    t ∈ generate_permutations_with_replacement w n := by
  induction w with
  | zero =>
      intro t ht _
      rw [List.length_eq_zero] at ht
      simp [generate_permutations_with_replacement, ht]
  | succ w ih =>
      intro t ht hx
      cases t with
      | nil => simp at ht
      | cons d rest =>
          simp only [generate_permutations_with_replacement, List.mem_flatten]
          refine ⟨(generate_permutations_with_replacement w n).map (fun r => d :: r),
            ?_, ?_⟩
          · exact List.mem_map.mpr
              ⟨d, List.mem_range.mpr (hx d (List.mem_cons_self d rest)), rfl⟩
          · exact List.mem_map.mpr
              ⟨rest, ih rest (by simpa using ht)
                (fun x hxr => hx x (List.mem_cons_of_mem d hxr)), rfl⟩

lemma gppwr_nodup (w n : ℕ) : (generate_permutations_with_replacement w n).Nodup := by
  induction w with
  | zero => simp [generate_permutations_with_replacement]
  | succ w ih =>
      simp only [generate_permutations_with_replacement]
      rw [List.nodup_flatten]
      constructor
      · intro l hl
        obtain ⟨d, -, rfl⟩ := List.mem_map.mp hl
        exact ih.map (fun x y hxy => by injection hxy)
      · rw [List.pairwise_map]
        refine List.Pairwise.imp ?_ (List.pairwise_lt_range n)
        intro d e hde x hx hy
        obtain ⟨r1, -, hr1⟩ := List.mem_map.mp hx
        obtain ⟨r2, -, hr2⟩ := List.mem_map.mp hy
        rw [← hr1] at hr2
        injection hr2 with hhead _
        omega

/-- C9: `generate_permutations_with_replacement w n` is the full universe:
exactly `n ^ w` codes, containing every ordered `w`-tuple over `{0, …, n-1}`,
without duplicates. It is deterministic because the embedding is a pure
function of its two arguments. -/
theorem generate_permutations_spec (w n : ℕ) :
    (generate_permutations_with_replacement w n).length = n ^ w ∧
      (∀ t : List ℕ, t.length = w → (∀ x ∈ t, x < n) →
        t ∈ generate_permutations_with_replacement w n) ∧
      (generate_permutations_with_replacement w n).Nodup :=
  ⟨gppwr_length w n, gppwr_mem w n, gppwr_nodup w n⟩

/-- Witness for C9 at width 2 over 2 symbols, with the tuple `(1,0)`. -/
theorem generate_permutations_spec_witness :
    (generate_permutations_with_replacement 2 2).length = 2 ^ 2 ∧
      [1, 0] ∈ generate_permutations_with_replacement 2 2 ∧
      (generate_permutations_with_replacement 2 2).Nodup :=
  ⟨(generate_permutations_spec 2 2).1,
    (generate_permutations_spec 2 2).2.1 [1, 0] rfl (by decide),
    (generate_permutations_spec 2 2).2.2⟩

lemma submit_guess_awaiting (s : Session) (guess : Code) (r : ℕ)
    (hst : s.state = SessionState.awaiting r) (hr : r < s.game_length) :
    submit_guess s guess =
      Except.ok ({ s with state :=
          (if is_won (compare_codes s.secret guess) s.board_width then SessionState.won
           else if r + 1 = s.game_length then SessionState.lost
           else SessionState.awaiting (r + 1)) },
        compare_codes s.secret guess,
        is_won (compare_codes s.secret guess) s.board_width) := by
  obtain ⟨sec, bw, gl, st⟩ := s
  simp only at hst
  subst hst
  simp only [submit_guess, hr, if_pos]

/-- C4: the game session is a step relation on the states
`awaiting`/`won`/`lost`. It starts awaiting with round 0; a guess submitted
while awaiting (with rounds remaining) is answered with the `compare_codes`
feedback against the fixed secret together with the win flag, the round
advances, and the session moves to `won` exactly when the feedback's
exact-match count equals the board width, to `lost` exactly when the
configured number of rounds is reached without a win, and otherwise stays
awaiting; submitting a guess in a terminal state is an error. -/
theorem session_machine_spec :
    (∀ (secret : Code) (bw gl : ℕ),
      (initSession secret bw gl).state = SessionState.awaiting 0) ∧
    (∀ (s : Session) (guess : Code) (r : ℕ),
      s.state = SessionState.awaiting r → r < s.game_length →
      ∃ s' : Session,
        submit_guess s guess
          = Except.ok (s', compare_codes s.secret guess,
              is_won (compare_codes s.secret guess) s.board_width) ∧
        s'.secret = s.secret ∧ s'.board_width = s.board_width ∧
        s'.game_length = s.game_length ∧
        (s'.state = SessionState.won ↔
          (compare_codes s.secret guess).1 = s.board_width) ∧
        (s'.state = SessionState.lost ↔
          ((compare_codes s.secret guess).1 ≠ s.board_width ∧
            r + 1 = s.game_length)) ∧
        ((compare_codes s.secret guess).1 ≠ s.board_width →
          r + 1 ≠ s.game_length →
          s'.state = SessionState.awaiting (r + 1))) ∧
    (∀ (s : Session) (guess : Code),
      s.state = SessionState.won ∨ s.state = SessionState.lost →
      submit_guess s guess = Except.error ()) := by
  refine ⟨fun _ _ _ => rfl, ?_, ?_⟩
  · intro s guess r hst hr
    refine ⟨_, submit_guess_awaiting s guess r hst hr, rfl, rfl, rfl, ?_, ?_, ?_⟩
    · by_cases hwin : (compare_codes s.secret guess).1 = s.board_width
      · simp [is_won, hwin]
      · by_cases hr2 : r + 1 = s.game_length <;> simp [is_won, hwin, hr2]
    · by_cases hwin : (compare_codes s.secret guess).1 = s.board_width
      · simp [is_won, hwin]
      · by_cases hr2 : r + 1 = s.game_length <;> simp [is_won, hwin, hr2]
    · intro hwin hr2
      simp [is_won, hwin, hr2]
  · intro s guess hterm
    obtain ⟨sec, bw, gl, st⟩ := s
    rcases hterm with h | h <;> simp only at h <;> subst h <;> rfl

/-- Witness for C4: a width-1 session of length 1; the start state, a
successful submission from the awaiting state, and the error on submitting in
the `won` state. -/
theorem session_machine_spec_witness :
    (initSession [0] 1 1).state = SessionState.awaiting 0 ∧
      submit_guess (Session.mk [0] 1 1 SessionState.won) [0] = Except.error () ∧
      (∃ s', submit_guess (Session.mk [0] 1 1 (SessionState.awaiting 0)) [0]
        = Except.ok (s', compare_codes [0] [0], is_won (compare_codes [0] [0]) 1)) := by
  refine ⟨session_machine_spec.1 [0] 1 1,
    session_machine_spec.2.2 _ [0] (Or.inl rfl), ?_⟩
  obtain ⟨s', hok, -⟩ := session_machine_spec.2.1
    (Session.mk [0] 1 1 (SessionState.awaiting 0)) [0] 0 rfl (by decide)
  exact ⟨s', hok⟩

lemma buildCategory_ge : ∀ (ks : List ℕ) (i : ℕ), ∀ x ∈ buildCategory i ks, i ≤ x := by
  intro ks
  induction ks with
  | nil =>
      intro i x hx
      simp [buildCategory] at hx
  | cons k ks ih =>
      intro i x hx
      simp only [buildCategory, List.mem_append] at hx
      rcases hx with hx | hx
      · rcases List.mem_replicate.mp hx with ⟨-, rfl⟩
        exact le_rfl
      · exact le_trans (Nat.le_succ i) (ih (i + 1) x hx)

lemma replicate_succ_union (k i : ℕ) (L : List ℕ) (hi : i ∉ L) :
    List.replicate (k + 1) i ∪ L = i :: L := by
  induction k with
  | zero =>
      rw [List.replicate_succ, List.cons_union, List.replicate_zero, List.nil_union]
      exact List.insert_of_not_mem hi
  | succ k ih =>
      rw [List.replicate_succ, List.cons_union, ih]
      exact List.insert_of_mem (List.mem_cons_self i L)

lemma buildCategory_count_head (k i : ℕ) (ks : List ℕ) :
    (buildCategory i (k :: ks)).count i = k := by
  simp only [buildCategory, List.count_append]
  have h0 : (buildCategory (i + 1) ks).count i = 0 :=
    List.count_eq_zero.mpr (fun hmem => by
      have := buildCategory_ge ks (i + 1) i hmem
      omega)
  rw [h0, List.count_replicate]
  simp

lemma buildCategory_dedup_map_count : ∀ (ks : List ℕ) (i : ℕ), (∀ k ∈ ks, 1 ≤ k) →
    (buildCategory i ks).dedup.map (fun x => (buildCategory i ks).count x) = ks := by
  intro ks
  induction ks with
  | nil => intro i _; rfl
  | cons k ks ih =>
      intro i hpos
      have hnotmem : i ∉ buildCategory (i + 1) ks := fun hmem => by
        have := buildCategory_ge ks (i + 1) i hmem
        omega
      have hnotdedup : i ∉ (buildCategory (i + 1) ks).dedup :=
        fun h => hnotmem (List.mem_dedup.mp h)
      cases k with
      | zero =>
          have := hpos 0 (List.mem_cons_self 0 ks)
          omega
      | succ k' =>
          have hded : (buildCategory i ((k' + 1) :: ks)).dedup
              = i :: (buildCategory (i + 1) ks).dedup := by
            simp only [buildCategory]
            rw [List.dedup_append, replicate_succ_union _ _ _ hnotdedup]
          rw [hded, List.map_cons]
          simp only [List.cons.injEq]
          constructor
          · exact buildCategory_count_head (k' + 1) i ks
          · have hmapeq : (buildCategory (i + 1) ks).dedup.map
                (fun x => (buildCategory i ((k' + 1) :: ks)).count x)
                = (buildCategory (i + 1) ks).dedup.map
                    (fun x => (buildCategory (i + 1) ks).count x) := by
              refine List.map_congr_left ?_
              intro x hx
              have hxge : i + 1 ≤ x := buildCategory_ge ks (i + 1) x (List.mem_dedup.mp hx)
              have hne : i ≠ x := by omega
              simp [buildCategory, List.count_append, List.count_replicate, hne]
            rw [hmapeq]
            exact ih (i + 1) (fun kk hkm => hpos kk (List.mem_cons_of_mem _ hkm))

lemma mergeSort_ge_sorted (l : List ℕ) :
    List.Pairwise (fun a b => decide (b ≤ a) = true)
      (l.mergeSort (fun a b => decide (b ≤ a))) :=
  List.sorted_mergeSort
    (fun a b c hab hbc => by
      simp only [decide_eq_true_eq] at *
      omega)
    (fun a b => by
      rcases Nat.le_total a b with h | h <;> simp [h])
    l

lemma category_counts_pos (c : Code) :
    ∀ k ∈ (c.dedup.map (fun colour => c.count colour)).mergeSort
        (fun a b => decide (b ≤ a)), 1 ≤ k := by
  intro k hk
  have hk' : k ∈ c.dedup.map (fun colour => c.count colour) :=
    (List.mergeSort_perm _ _).mem_iff.mp hk
  obtain ⟨x, hx, rfl⟩ := List.mem_map.mp hk'
  exact List.count_pos_iff.mpr (List.mem_dedup.mp hx)

lemma get_category_buildCategory (ks : List ℕ) (hpos : ∀ k ∈ ks, 1 ≤ k)
    (hsorted : List.Pairwise (fun a b => decide (b ≤ a) = true) ks) :
    get_category (buildCategory 0 ks) = buildCategory 0 ks := by
  unfold get_category
  rw [buildCategory_dedup_map_count ks 0 hpos, List.mergeSort_of_sorted hsorted]

lemma get_category_idem (c : Code) :
    get_category (get_category c) = get_category c := by
  have h1 : get_category c
      = buildCategory 0 ((c.dedup.map (fun colour => c.count colour)).mergeSort
          (fun a b => decide (b ≤ a))) := rfl
  rw [h1]
  exact get_category_buildCategory _ (category_counts_pos c) (mergeSort_ge_sorted _)

lemma buildCategory_length : ∀ (ks : List ℕ) (i : ℕ),
    (buildCategory i ks).length = ks.sum := by
  intro ks
  induction ks with
  | nil => intro i; rfl
  | cons k ks ih =>
      intro i
      simp only [buildCategory, List.length_append, List.length_replicate, ih,
        List.sum_cons]

lemma get_category_length (c : Code) : (get_category c).length = c.length := by
  unfold get_category
  rw [buildCategory_length]
  rw [(List.mergeSort_perm (c.dedup.map (fun colour => c.count colour))
    (fun a b => decide (b ≤ a))).sum_eq]
  exact List.sum_map_count_dedup_eq_length c

/-- C10: `get_category` is idempotent — the category signature of a code is a
code of the same length that belongs to its own category, so the category
tuple is a valid representative probe of its category. -/
theorem get_category_idempotent (c : Code) :
    get_category (get_category c) = get_category c ∧
      (get_category c).length = c.length :=
  ⟨get_category_idem c, get_category_length c⟩

lemma foldl_max_spec {α : Type} (f : α → ℕ) : ∀ (xs : List α) (acc : α),
    (xs.foldl (fun best y => if f best < f y then y else best) acc = acc ∨
      xs.foldl (fun best y => if f best < f y then y else best) acc ∈ xs) ∧
    f acc ≤ f (xs.foldl (fun best y => if f best < f y then y else best) acc) ∧
    ∀ y ∈ xs, f y ≤ f (xs.foldl (fun best y => if f best < f y then y else best) acc) := by
  intro xs
  induction xs with
  | nil =>
      intro acc
      exact ⟨Or.inl rfl, le_refl _, by simp⟩
  | cons z xs ih =>
      intro acc
      simp only [List.foldl_cons]
      obtain ⟨hmem, hle, hall⟩ := ih (if f acc < f z then z else acc)
      refine ⟨?_, ?_, ?_⟩
      · rcases hmem with h | h
        · rw [h]
          by_cases hz : f acc < f z
          · rw [if_pos hz]
            exact Or.inr (List.mem_cons_self z xs)
          · rw [if_neg hz]
            exact Or.inl rfl
        · exact Or.inr (List.mem_cons_of_mem z h)
      · refine le_trans ?_ hle
        by_cases hz : f acc < f z
        · rw [if_pos hz]
          exact le_of_lt hz
        · rw [if_neg hz]
      · intro y hy
        rcases List.mem_cons.mp hy with rfl | hy'
        · refine le_trans ?_ hle
          by_cases hz : f acc < f y
          · rw [if_pos hz]
          · rw [if_neg hz]
            omega
        · exact hall y hy'

lemma maxByKey_spec {α : Type} (f : α → ℕ) (l : List α) (x : α)
    (hx : maxByKey f l = some x) : x ∈ l ∧ ∀ y ∈ l, f y ≤ f x := by
  cases l with
  | nil => simp [maxByKey] at hx
  | cons a l =>
      simp only [maxByKey, Option.some.injEq] at hx
      subst hx
      obtain ⟨hmem, hle, hall⟩ := foldl_max_spec f l a
      constructor
      · rcases hmem with h | h
        · rw [h]
          exact List.mem_cons_self a l
        · exact List.mem_cons_of_mem a h
      · intro y hy
        rcases List.mem_cons.mp hy with rfl | hy'
        · exact hle
        · exact hall y hy'

/-- C3: on a non-empty pool the Kooi strategy returns the first pool element
whose category equals a category `g` attaining the maximum partition count
among the categories present in the pool; the probe `g` used for the
partition count is itself a representative of category `g`, and a partition
count is the number of distinct feedback values the probe produces against
the pool. -/
theorem kooi_guess_spec (pool : List Code) (hne : pool ≠ []) :
    ∃ g guess,
      g ∈ get_all_categories pool ∧
      get_category g = g ∧
      (∀ g' ∈ get_all_categories pool,
        get_partition_count pool g' ≤ get_partition_count pool g) ∧
      (∀ g' : Code, get_partition_count pool g'
        = ((pool.map (fun c => compare_codes g' c)).toFinset).card) ∧
      kooi_guess pool = some guess ∧
      pool.find? (fun c => decide (get_category c = g)) = some guess := by
  obtain ⟨a, cats, hcats_eq⟩ : ∃ a cats, get_all_categories pool = a :: cats := by
    cases hh : get_all_categories pool with
    | nil =>
        exfalso
        unfold get_all_categories at hh
        rw [List.dedup_eq_nil] at hh
        exact hne (List.map_eq_nil_iff.mp hh)
    | cons a cats => exact ⟨a, cats, rfl⟩
  obtain ⟨best, hmax⟩ : ∃ b, maxByKey (get_partition_count pool)
      (get_all_categories pool) = some b := by
    rw [hcats_eq]
    exact ⟨_, rfl⟩
  obtain ⟨hgmem, hgmax⟩ := maxByKey_spec (get_partition_count pool)
    (get_all_categories pool) best hmax
  obtain ⟨c, hc, hcat⟩ : ∃ c ∈ pool, get_category c = best :=
    List.mem_map.mp (List.mem_dedup.mp hgmem)
  have hidem : get_category best = best := by
    rw [← hcat, get_category_idem, hcat]
  have hsome : (pool.find? (fun cand => decide (get_category cand = best))).isSome
      = true :=
    List.find?_isSome.mpr ⟨c, hc, decide_eq_true hcat⟩
  obtain ⟨guess, hguess⟩ := Option.isSome_iff_exists.mp hsome
  refine ⟨best, guess, hgmem, hidem, hgmax, ?_, ?_, hguess⟩
  · intro g'
    exact (List.card_toFinset _).symm
  · unfold kooi_guess
    rw [hmax]
    exact hguess

/-- Witness for C3 on the non-empty pool `[(0,0), (0,1)]`. -/
theorem kooi_guess_spec_witness :
    ∃ g guess,
      g ∈ get_all_categories [[0, 0], [0, 1]] ∧
      get_category g = g ∧
      (∀ g' ∈ get_all_categories [[0, 0], [0, 1]],
        get_partition_count [[0, 0], [0, 1]] g'
          ≤ get_partition_count [[0, 0], [0, 1]] g) ∧
      (∀ g' : Code, get_partition_count [[0, 0], [0, 1]] g'
        = (([[0, 0], [0, 1]].map (fun c => compare_codes g' c)).toFinset).card) ∧
      kooi_guess [[0, 0], [0, 1]] = some guess ∧
      [[0, 0], [0, 1]].find? (fun c => decide (get_category c = g)) = some guess :=
  kooi_guess_spec [[0, 0], [0, 1]] (by decide)

end Mastermind
